import Mathlib

/-!
Verification of the estimation/calibration core of the Hackathon2026 repository.

Shallow embedding conventions:
- Python strings are modelled as lists of characters; case mapping and the
  character classes of the regular expressions are modelled at the ASCII level
  (all data handled by the estimation core is ASCII).
- Python floats are modelled as rationals; the claims under test only exercise
  arithmetic that is exact in both representations.
- Python round to one decimal is modelled as round half up; none of the values
  exercised by the claims falls on a tie, where CPython uses bankers rounding.
- Dictionaries keyed by normalized names are modelled as association lists with
  nodup keys where a theorem needs dict semantics.
-/

/-- ASCII model of the lowercase conversion applied by str.lower. -/
def toLowerM (c : Char) : Char :=
  if 65 ≤ c.toNat && c.toNat ≤ 90 then Char.ofNat (c.toNat + 32) else c

/-- ASCII model of the uppercase conversion applied to the first character by
str.capitalize. -/
def toUpperM (c : Char) : Char :=
  if 97 ≤ c.toNat && c.toNat ≤ 122 then Char.ofNat (c.toNat - 32) else c

/-- Characters kept by the strict normalization regex, class a-z0-9
(calibration_engine.py line 43). -/
def isStrictChar (c : Char) : Bool :=
  (97 ≤ c.toNat && c.toNat ≤ 122) || (48 ≤ c.toNat && c.toNat ≤ 57)

/-- Word characters of the regex class backslash-w at the ASCII level:
letters, digits and the underscore (calibration_engine.py line 59). -/
def isWordCharM (c : Char) : Bool :=
  (97 ≤ c.toNat && c.toNat ≤ 122) || (65 ≤ c.toNat && c.toNat ≤ 90) ||
  (48 ≤ c.toNat && c.toNat ≤ 57) || c.toNat = 95

/-- Whitespace as recognized by str.split and the regex class backslash-s. -/
def isSpaceM (c : Char) : Bool :=
  c.toNat = 32 || c.toNat = 9 || c.toNat = 10 || c.toNat = 13 ||
  c.toNat = 11 || c.toNat = 12

/-- CalibrationEngine._normalize_feature_name: lowercase, then drop every
character outside a-z0-9 (calibration_engine.py lines 33-44). -/
def normalizeStrict (s : List Char) : List Char :=
  (s.map toLowerM).filter isStrictChar

/-- Helper of splitWS: accumulates the current token in reverse. -/
def splitWSGo : List Char → List Char → List (List Char)
  | acc, [] => if acc = [] then [] else [acc.reverse]
  | acc, c :: rest =>
    if isSpaceM c then
      if acc = [] then splitWSGo [] rest else acc.reverse :: splitWSGo [] rest
    else splitWSGo (c :: acc) rest

/-- str.split with no argument: split on runs of whitespace, no empty tokens. -/
def splitWS (s : List Char) : List (List Char) := splitWSGo [] s

/-- Stopword list of CalibrationEngine.STOPWORDS
(calibration_engine.py lines 28-31). -/
def STOPWORDS : List (List Char) :=
  [['u','s','e','r'],
   ['m','a','n','a','g','e','m','e','n','t'],
   ['s','y','s','t','e','m'],
   ['m','o','d','u','l','e'],
   ['s','e','r','v','i','c','e'],
   ['a','n','d'],
   ['&'],
   ['t','h','e'],
   ['a'],
   ['a','n'],
   ['f','o','r'],
   ['w','i','t','h']]

/-- CalibrationEngine.normalize_for_matching, as the list of tokens it
produces: lowercase, replace characters that are neither word characters nor
whitespace by a space, split on whitespace, drop stopwords
(calibration_engine.py lines 46-67).  The source joins the tokens with single
spaces and the fuzzy matcher immediately re-splits them, which yields exactly
this token list, so the join/split round trip is not modelled. -/
def tokensFor (s : List Char) : List (List Char) :=
  (splitWS ((s.map toLowerM).map (fun c => if isWordCharM c || isSpaceM c then c else ' '))).filter
    (fun t => !(STOPWORDS.contains t))

/-- Letter-digit expansion of a calibration key: insert a space between a
lowercase letter and an immediately following digit, non-overlapping scan from
the left (calibration_engine.py line 161). -/
def expandLD : List Char → List Char
  | [] => []
  | [c] => [c]
  | a :: b :: rest =>
    if (97 ≤ a.toNat && a.toNat ≤ 122) && (48 ≤ b.toNat && b.toNat ≤ 57) then
      a :: ' ' :: b :: expandLD rest
    else a :: expandLD (b :: rest)

/-- Python substring membership: containsSub needle haystack is true when
needle occurs contiguously inside haystack (also for the empty needle). -/
def containsSub : List Char → List Char → Bool
  | needle, [] => needle.isEmpty
  | needle, c :: rest => needle.isPrefixOf (c :: rest) || containsSub needle rest

/-- One aggregated calibration record: total hours and number of historical
observations (calibration_engine.py lines 20-24). -/
structure CalEntry where
  total_hours : ℚ
  sample_size : ℕ
deriving DecidableEq, Repr

/-- The in-memory calibration table _calibration_data, as an association list
from normalized keys to entries.  Python dict iteration order is insertion
order, which the list order models. -/
abbrev Store := List (List Char × CalEntry)

/-- Dictionary lookup in the calibration table. -/
def storeLookup : Store → List Char → Option CalEntry
  | [], _ => none
  | (k, e) :: rest, key => if k = key then some e else storeLookup rest key

/-- Python round(x, 1): one decimal.  Modelled as round half up over ℚ; the
values exercised by the claims never fall on a tie. -/
def roundTo1 (q : ℚ) : ℚ := ((⌊q * 10 + 1/2⌋ : ℤ) : ℚ) / 10

/-- Team role counts produced by PlanningEngine._compute_team_recommendation. -/
structure TeamRec where
  frontend : ℤ
  backend : ℤ
  qa : ℤ
  pm : ℤ
deriving DecidableEq, Repr

/-- PlanningEngine._compute_team_recommendation (planning_engine.py lines
68-104).  Python floor division on the positive engineer count is Int.fdiv. -/
def computeTeamRecommendation (total_hours timeline_weeks : ℚ) : TeamRec :=
  let tw := if timeline_weeks ≤ 0 then 1 else timeline_weeks
  let available_hours_per_engineer := tw * 40
  let needed : ℤ := max 2 (Int.ceil (total_hours / available_hours_per_engineer))
  let fe := max 1 (Int.ceil ((needed : ℚ) * (1/2)))
  let be := max 1 (Int.ceil ((needed : ℚ) * (1/2)))
  let qa := max 1 (Int.fdiv needed 3)
  ⟨fe, be, qa, 1⟩

/-- The team recommendation exactly as worded by the specification: clamp the
timeline at 1 week, divide total hours by 40 available hours per engineer per
week, floor the engineer count at 2, then derive the role counts.  Companion
definition written from the claim text, to be compared with
computeTeamRecommendation. -/
def teamRecSpecFormula (total_hours timeline_weeks : ℚ) : TeamRec :=
  let tw := if timeline_weeks ≤ 0 then 1 else timeline_weeks
  let needed : ℤ := max 2 (Int.ceil (total_hours / (tw * 40)))
  ⟨max 1 (Int.ceil ((needed : ℚ) * (1/2))),
   max 1 (Int.ceil ((needed : ℚ) * (1/2))),
   max 1 (Int.fdiv needed 3), 1⟩

/-- Tier B of the fuzzy matcher: the calibration key occurs inside the strict
normalization of the query, or the other way round
(calibration_engine.py line 155). -/
def candTierB (full k : List Char) : Bool := containsSub k full || containsSub full k

/-- Token set of a calibration key after letter-digit expansion
(calibration_engine.py lines 161-162). -/
def keyTokens (k : List Char) : Finset (List Char) := (splitWS (expandLD k)).toFinset

/-- Tier C of the fuzzy matcher: Jaccard overlap of the query token set with
the expanded key token set is at least 0.6 (calibration_engine.py lines
164-173).  An empty key token set is skipped by the source loop, and the
guard on a positive union size is kept as in the source. -/
def overlapOK (ftoks : Finset (List Char)) (k : List Char) : Bool :=
  let kt := keyTokens k
  if kt = ∅ then false
  else
    let overlap := (ftoks ∩ kt).card
    let total := (ftoks ∪ kt).card
    decide (0 < total) && decide ((3 : ℚ)/5 ≤ (overlap : ℚ) / (total : ℚ))

/-- Loop body of CalibrationEngine._fuzzy_match (calibration_engine.py lines
149-176): the accumulator carries best_match and best_sample_size. -/
def fuzzyScan (full : List Char) (ftoks : Finset (List Char)) :
    List (List Char × CalEntry) → Option (List Char) × ℕ → Option (List Char) × ℕ
  | [], acc => acc
  | (k, d) :: rest, (best, bSize) =>
    if d.sample_size < 2 then fuzzyScan full ftoks rest (best, bSize)
    else if candTierB full k then
      if bSize < d.sample_size then fuzzyScan full ftoks rest (some k, d.sample_size)
      else fuzzyScan full ftoks rest (best, bSize)
    else if overlapOK ftoks k then
      if bSize < d.sample_size then fuzzyScan full ftoks rest (some k, d.sample_size)
      else fuzzyScan full ftoks rest (best, bSize)
    else fuzzyScan full ftoks rest (best, bSize)

/-- CalibrationEngine._fuzzy_match (calibration_engine.py lines 124-178). -/
def fuzzyMatch (store : Store) (name : List Char) : Option (List Char) :=
  let full := normalizeStrict name
  let ftoks := (tokensFor name).toFinset
  if ftoks = ∅ then none
  else (fuzzyScan full ftoks store (none, 0)).1

/-- Fuzzy-match tail of CalibrationEngine.get_calibrated_hours
(calibration_engine.py lines 113-122). -/
def hoursFromFuzzy (store : Store) (name : List Char) (base : ℚ) : ℚ :=
  match fuzzyMatch store name with
  | some k =>
    match storeLookup store k with
    | some d =>
      if 2 ≤ d.sample_size then d.total_hours / (d.sample_size : ℚ) else base
    | none => base
  | none => base

/-- CalibrationEngine.get_calibrated_hours (calibration_engine.py lines
88-122): exact strict-normalized lookup with a sample-size floor of 2, then
fuzzy match with the same floor, else the base estimate. -/
def getCalibratedHours (store : Store) (name : List Char) (base : ℚ) : ℚ :=
  match storeLookup store (normalizeStrict name) with
  | some d =>
    if 2 ≤ d.sample_size then d.total_hours / (d.sample_size : ℚ)
    else hoursFromFuzzy store name base
  | none => hoursFromFuzzy store name base

/-- The avg_hours/sample_size record returned by
CalibrationEngine.get_calibration_info. -/
structure CalInfo where
  avg_hours : ℚ
  sample_size : ℕ
deriving DecidableEq, Repr

/-- Fuzzy-match tail of CalibrationEngine.get_calibration_info
(calibration_engine.py lines 219-229). -/
def infoFromFuzzy (store : Store) (name : List Char) : Option CalInfo :=
  match fuzzyMatch store name with
  | some k =>
    match storeLookup store k with
    | some d =>
      if 0 < d.sample_size then
        some ⟨d.total_hours / (d.sample_size : ℚ), d.sample_size⟩
      else none
    | none => none
  | none => none

/-- CalibrationEngine.get_calibration_info (calibration_engine.py lines
199-229): exact strict-normalized lookup guarded only by a positive sample
size, then fuzzy match with the same positive guard. -/
def getCalibrationInfo (store : Store) (name : List Char) : Option CalInfo :=
  match storeLookup store (normalizeStrict name) with
  | some d =>
    if 0 < d.sample_size then
      some ⟨d.total_hours / (d.sample_size : ℚ), d.sample_size⟩
    else infoFromFuzzy store name
  | none => infoFromFuzzy store name

/-- An input feature as consumed by EstimationAgent.execute: name, complexity
label and the names of its subfeatures (estimation_agent.py lines 43-46). -/
structure FeatureIn where
  name : List Char
  complexity : List Char
  subfeatures : List (List Char)
deriving DecidableEq, Repr

/-- One estimated subfeature in the output.  The pending flag models the
_pending_llm marker used between the calibration pass and the batch fill
(estimation_agent.py lines 76-81); it is false on every returned value. -/
structure SubOut where
  name : List Char
  effort : ℚ
  was_calibrated : Bool
  pending : Bool
deriving DecidableEq, Repr

/-- One estimated feature in the output (estimation_agent.py lines 88-94). -/
structure FeatOut where
  name : List Char
  complexity : List Char
  total_hours : ℚ
  subfeatures : List SubOut
  was_calibrated : Bool
deriving DecidableEq, Repr

/-- One deferred item queued for the batched external estimate
(estimation_agent.py lines 82-86). -/
structure Item where
  feature : List Char
  subfeature : List Char
  complexity : List Char
deriving DecidableEq, Repr

/-- The result dict of EstimationAgent.execute (estimation_agent.py lines
122-128).  The per-complexity breakdown entry is not modelled; no claim
mentions it. -/
structure EstimateResult where
  total_hours : ℚ
  min_hours : ℚ
  max_hours : ℚ
  features : List FeatOut
deriving DecidableEq, Repr

/-- str.capitalize on an already lowercased label: uppercase the first
character, lowercase the rest (estimation_agent.py line 90). -/
def capitalizeM : List Char → List Char
  | [] => []
  | c :: rest => toUpperM c :: rest.map toLowerM

/-- First pass of EstimationAgent.execute over the subfeature names of one
feature (estimation_agent.py lines 55-86): subfeatures with an empty name are
skipped; a trustworthy calibration (info present with sample_size at least 2)
yields a calibrated subfeature with the 1.20 buffer applied to avg_hours; any
other subfeature becomes a pending placeholder with effort 0 and is appended
to the deferred-item batch.  Returns (subfeature outputs, feature total of
calibrated efforts, any-calibrated flag, deferred items), in source order. -/
def pass1Subs (store : Store) (fname cplx : List Char) :
    List (List Char) → List SubOut × ℚ × Bool × List Item
  | [] => ([], 0, false, [])
  | sfName :: rest =>
    if sfName = [] then pass1Subs store fname cplx rest
    else
      match pass1Subs store fname cplx rest with
      | (souts, tot, cal, items) =>
        match getCalibrationInfo store sfName with
        | some info =>
          if 2 ≤ info.sample_size then
            (⟨sfName, roundTo1 (info.avg_hours * (6/5)), true, false⟩ :: souts,
             roundTo1 (info.avg_hours * (6/5)) + tot, true, items)
          else
            (⟨sfName, 0, false, true⟩ :: souts, tot, cal,
             ⟨fname, sfName, cplx⟩ :: items)
        | none =>
          (⟨sfName, 0, false, true⟩ :: souts, tot, cal,
           ⟨fname, sfName, cplx⟩ :: items)

/-- The effective subfeature-name list of a feature: a single subfeature named
after the parent is synthesized when the list is empty
(estimation_agent.py lines 48-49). -/
def effectiveSubs (f : FeatureIn) : List (List Char) :=
  if f.subfeatures = [] then [f.name] else f.subfeatures

/-- First pass of EstimationAgent.execute for one feature (estimation_agent.py
lines 43-94): complexity is lowercased for the deferred items and
re-capitalized in the output record. -/
def pass1Feature (store : Store) (f : FeatureIn) : FeatOut × List Item :=
  match pass1Subs store f.name (f.complexity.map toLowerM) (effectiveSubs f) with
  | (souts, tot, cal, items) =>
    (⟨f.name, capitalizeM (f.complexity.map toLowerM), tot, souts, cal⟩, items)

/-- First pass of EstimationAgent.execute over all features, accumulating the
deferred items across features in order (estimation_agent.py lines 43-94). -/
def pass1 (store : Store) : List FeatureIn → List FeatOut × List Item
  | [] => ([], [])
  | f :: rest =>
    match pass1Feature store f, pass1 store rest with
    | (fo, its), (fos, more) => (fo :: fos, its ++ more)

/-- EstimationAgent._llm_estimate_batch (estimation_agent.py lines 130-197).
The external call is modelled by its parsed outcome: none stands for any
exception (timeout, unparsable JSON) as well as for a missing hours key being
caught, and each list entry is the parsed hours value, none when the entry is
not numeric.  A response of the wrong length, like an exception, is replaced
by 16.0 raw hours per item; in a response of the right length each
non-numeric or non-positive entry individually becomes 16.0. -/
def llmEstimateBatch (items : List Item) (resp : Option (List (Option ℚ))) : List ℚ :=
  match resp with
  | none => List.replicate items.length 16
  | some hs =>
    if hs.length = items.length then
      hs.map (fun h =>
        match h with
        | some v => if 0 < v then v else 16
        | none => 16)
    else List.replicate items.length 16

/-- Fill pass of EstimationAgent.execute over the subfeatures of one feature
(estimation_agent.py lines 100-114): each pending subfeature consumes the
next raw estimate (16.0 when the estimate list is exhausted), gets the 1.20
buffer and one decimal of rounding, and the feature total is re-rounded after
each addition.  Returns the filled subfeatures, the new feature total, and
the remaining estimates. -/
def fillSubs : List ℚ → ℚ → List SubOut → List SubOut × ℚ × List ℚ
  | ests, tot, [] => ([], tot, ests)
  | ests, tot, s :: rest =>
    if s.pending then
      match ests with
      | h :: hrest =>
        match fillSubs hrest (roundTo1 (tot + roundTo1 (h * (6/5)))) rest with
        | (rs, t2, e2) =>
          (⟨s.name, roundTo1 (h * (6/5)), s.was_calibrated, false⟩ :: rs, t2, e2)
      | [] =>
        match fillSubs [] (roundTo1 (tot + roundTo1 (16 * (6/5)))) rest with
        | (rs, t2, e2) =>
          (⟨s.name, roundTo1 (16 * (6/5)), s.was_calibrated, false⟩ :: rs, t2, e2)
    else
      match fillSubs ests tot rest with
      | (rs, t2, e2) => (s :: rs, t2, e2)

/-- Fill pass of EstimationAgent.execute over all features, threading the
estimate list (estimation_agent.py lines 100-114). -/
def fillFeatures : List ℚ → List FeatOut → List FeatOut × List ℚ
  | ests, [] => ([], ests)
  | ests, fo :: rest =>
    match fillSubs ests fo.total_hours fo.subfeatures with
    | (subs, tot, e1) =>
      match fillFeatures e1 rest with
      | (fos, e2) =>
        (⟨fo.name, fo.complexity, tot, subs, fo.was_calibrated⟩ :: fos, e2)

/-- EstimationAgent.execute (estimation_agent.py lines 18-128).  resp is the
outcome of the single batched external call; it is consulted only when at
least one item was deferred, exactly as in the source. -/
def executeE (store : Store) (features : List FeatureIn)
    (resp : Option (List (Option ℚ))) : EstimateResult :=
  if features = [] then ⟨0, 0, 0, []⟩
  else
    match pass1 store features with
    | (fos, items) =>
      let fos2 := if items = [] then fos else (fillFeatures (llmEstimateBatch items resp) fos).1
      let total := (fos2.map FeatOut.total_hours).sum
      ⟨roundTo1 total, roundTo1 (total * (17/20)), roundTo1 (total * (23/20)), fos2⟩

/-- A feature record as consumed by ConfidenceEngine.calculate_confidence:
only the name and the was_calibrated flag are read
(confidence_engine.py lines 55-95). -/
structure ConfFeature where
  name : List Char
  was_calibrated : Bool
deriving DecidableEq, Repr

/-- ConfidenceEngine._calculate_coverage_score (confidence_engine.py lines
39-61). -/
def coverageScore (fs : List ConfFeature) : ℚ :=
  if fs = [] then 0
  else ((fs.countP (fun f => f.was_calibrated) : ℚ)) / (fs.length : ℚ)

/-- The count of calibrated features whose calibration entry has sample_size
at least 3 (confidence_engine.py lines 86-96). -/
def strongCount (store : Store) (fs : List ConfFeature) : ℕ :=
  fs.countP (fun f =>
    f.was_calibrated &&
      (match getCalibrationInfo store f.name with
       | some i => decide (3 ≤ i.sample_size)
       | none => false))

/-- ConfidenceEngine._calculate_strength_score (confidence_engine.py lines
63-100): 0.5 when no calibration engine is supplied. -/
def strengthScore (fs : List ConfFeature) (eng : Option Store) : ℚ :=
  if fs = [] then 0
  else
    match eng with
    | none => 1/2
    | some store => ((strongCount store fs : ℚ)) / (fs.length : ℚ)

/-- ConfidenceEngine.calculate_confidence (confidence_engine.py lines 6-37).
The domain_confidence argument is accepted as in the source signature. -/
def calculateConfidence (fs : List ConfFeature) (domain_confidence : ℚ)
    (eng : Option Store) : ℚ :=
  if fs = [] then 0
  else min ((coverageScore fs * (6/10) + strengthScore fs eng * (4/10)) * 100) 95

-- ===================== THEOREMS =====================

/-- Evaluation rule for roundTo1 at a concrete argument. -/
lemma roundTo1_eval (q : ℚ) (k : ℤ) (h1 : (k : ℚ) ≤ q * 10 + 1/2)
    (h2 : q * 10 + 1/2 < (k : ℚ) + 1) : roundTo1 q = (k : ℚ) / 10 := by
  unfold roundTo1
  rw [Int.floor_eq_iff.mpr ⟨h1, by exact_mod_cast h2⟩]

/-- roundTo1 fixes every integer multiple of one tenth. -/
lemma roundTo1_tenth (k : ℤ) : roundTo1 ((k : ℚ) / 10) = (k : ℚ) / 10 := by
  have e : ((k : ℚ)/10) * 10 + 1/2 = (k : ℚ) + 1/2 := by ring
  exact roundTo1_eval _ k (by rw [e]; linarith) (by rw [e]; linarith)

/-- The buffered fallback effort: 16.0 raw hours times the 1.20 buffer,
rounded to one decimal, is 19.2. -/
lemma roundTo1_fallback : roundTo1 ((16 : ℚ) * (6/5)) = 96/5 := by
  have h : ((16 : ℚ) * (6/5)) = ((192 : ℤ) : ℚ) / 10 := by norm_num
  rw [h, roundTo1_tenth]
  norm_num

/-- A successful lookup is a member of the association list. -/
lemma storeLookup_mem {store : Store} {k : List Char} {e : CalEntry}
    (h : storeLookup store k = some e) : (k, e) ∈ store := by
  induction store with
  | nil => simp [storeLookup] at h
  | cons hd tl ih =>
    obtain ⟨k0, e0⟩ := hd
    by_cases hk : k0 = k
    · subst hk
      simp [storeLookup] at h
      subst h
      exact List.mem_cons_self _ _
    · simp [storeLookup, hk] at h
      exact List.mem_cons_of_mem _ (ih h)

/-- With nodup keys (dict semantics), membership determines the lookup. -/
lemma storeLookup_of_mem_nodup {store : Store} {k : List Char} {e : CalEntry}
    (hnd : (store.map Prod.fst).Nodup) (hmem : (k, e) ∈ store) :
    storeLookup store k = some e := by
  induction store with
  | nil => simp at hmem
  | cons hd tl ih =>
    obtain ⟨k0, e0⟩ := hd
    simp only [List.map_cons, List.nodup_cons] at hnd
    rcases List.mem_cons.mp hmem with heq | htl
    · obtain ⟨hk, he⟩ := Prod.mk.inj heq
      subst hk; subst he
      simp [storeLookup]
    · have hne : k0 ≠ k := by
        intro hk
        subst hk
        exact hnd.1 (List.mem_map.mpr ⟨(k0, e), htl, rfl⟩)
      simp [storeLookup, hne]
      exact ih hnd.2 htl

/-- Invariant of the _fuzzy_match loop: the final best_sample_size bounds the
sample size of every candidate in the scanned list and never decreases, and
the final state is either the initial accumulator or carries a candidate of
the list whose sample size is exactly the final best_sample_size. -/
lemma fuzzyScan_spec (full : List Char) (ftoks : Finset (List Char)) :
    ∀ (l : List (List Char × CalEntry)) (best : Option (List Char)) (bSize : ℕ),
      (∀ k e, (k, e) ∈ l → 2 ≤ e.sample_size →
          (candTierB full k = true ∨ overlapOK ftoks k = true) →
          e.sample_size ≤ (fuzzyScan full ftoks l (best, bSize)).2)
      ∧ bSize ≤ (fuzzyScan full ftoks l (best, bSize)).2
      ∧ (fuzzyScan full ftoks l (best, bSize) = (best, bSize)
         ∨ ∃ k e, (fuzzyScan full ftoks l (best, bSize)).1 = some k ∧ (k, e) ∈ l
              ∧ 2 ≤ e.sample_size ∧ (candTierB full k = true ∨ overlapOK ftoks k = true)
              ∧ e.sample_size = (fuzzyScan full ftoks l (best, bSize)).2) := by
  intro l
  induction l with
  | nil =>
    intro best bSize
    refine ⟨?_, le_refl _, Or.inl rfl⟩
    intro k e hmem
    simp at hmem
  | cons hd tl ih =>
    obtain ⟨k0, d0⟩ := hd
    intro best bSize
    by_cases h1 : d0.sample_size < 2
    · have hstep : fuzzyScan full ftoks ((k0, d0) :: tl) (best, bSize)
          = fuzzyScan full ftoks tl (best, bSize) := by
        simp [fuzzyScan, h1]
      rw [hstep]
      obtain ⟨iha, ihb, ihc⟩ := ih best bSize
      refine ⟨?_, ihb, ?_⟩
      · intro k e hmem h2 hcand
        rcases List.mem_cons.mp hmem with heq | htl
        · obtain ⟨hk, he⟩ := Prod.mk.inj heq
          subst he
          omega
        · exact iha k e htl h2 hcand
      · rcases ihc with hsame | ⟨k, e, hk, hmem, h2, hcand, hsz⟩
        · exact Or.inl hsame
        · exact Or.inr ⟨k, e, hk, List.mem_cons_of_mem _ hmem, h2, hcand, hsz⟩
    · have h2le : 2 ≤ d0.sample_size := by omega
      by_cases hcand0 : candTierB full k0 = true ∨ overlapOK ftoks k0 = true
      · -- the head is a candidate; the accumulator is updated when its
        -- sample size is strictly larger
        by_cases hlt : bSize < d0.sample_size
        · have hstep : fuzzyScan full ftoks ((k0, d0) :: tl) (best, bSize)
              = fuzzyScan full ftoks tl (some k0, d0.sample_size) := by
            rcases hcand0 with hB | hC
            · simp [fuzzyScan, h1, hB, hlt]
            · by_cases hB : candTierB full k0 = true
              · simp [fuzzyScan, h1, hB, hlt]
              · simp [fuzzyScan, h1, hB, hC, hlt]
          rw [hstep]
          obtain ⟨iha, ihb, ihc⟩ := ih (some k0) d0.sample_size
          refine ⟨?_, by omega, ?_⟩
          · intro k e hmem h2 hcand
            rcases List.mem_cons.mp hmem with heq | htl
            · obtain ⟨hk, he⟩ := Prod.mk.inj heq
              subst he
              exact ihb
            · exact iha k e htl h2 hcand
          · rcases ihc with hsame | ⟨k, e, hk, hmem, h2, hcand, hsz⟩
            · refine Or.inr ⟨k0, d0, ?_, List.mem_cons_self _ _, h2le, hcand0, ?_⟩
              · rw [hsame]
              · rw [hsame]
            · exact Or.inr ⟨k, e, hk, List.mem_cons_of_mem _ hmem, h2, hcand, hsz⟩
        · have hstep : fuzzyScan full ftoks ((k0, d0) :: tl) (best, bSize)
              = fuzzyScan full ftoks tl (best, bSize) := by
            rcases hcand0 with hB | hC
            · simp [fuzzyScan, h1, hB, hlt]
            · by_cases hB : candTierB full k0 = true
              · simp [fuzzyScan, h1, hB, hlt]
              · simp [fuzzyScan, h1, hB, hC, hlt]
          rw [hstep]
          obtain ⟨iha, ihb, ihc⟩ := ih best bSize
          refine ⟨?_, ihb, ?_⟩
          · intro k e hmem h2 hcand
            rcases List.mem_cons.mp hmem with heq | htl
            · obtain ⟨hk, he⟩ := Prod.mk.inj heq
              subst he
              omega
            · exact iha k e htl h2 hcand
          · rcases ihc with hsame | ⟨k, e, hk, hmem, h2, hcand, hsz⟩
            · exact Or.inl hsame
            · exact Or.inr ⟨k, e, hk, List.mem_cons_of_mem _ hmem, h2, hcand, hsz⟩
      · have hB : ¬ candTierB full k0 = true := fun h => hcand0 (Or.inl h)
        have hC : ¬ overlapOK ftoks k0 = true := fun h => hcand0 (Or.inr h)
        have hstep : fuzzyScan full ftoks ((k0, d0) :: tl) (best, bSize)
            = fuzzyScan full ftoks tl (best, bSize) := by
          simp [fuzzyScan, h1, hB, hC]
        rw [hstep]
        obtain ⟨iha, ihb, ihc⟩ := ih best bSize
        refine ⟨?_, ihb, ?_⟩
        · intro k e hmem h2 hcand
          rcases List.mem_cons.mp hmem with heq | htl
          · obtain ⟨hk, he⟩ := Prod.mk.inj heq
            subst hk
            exact absurd hcand hcand0
          · exact iha k e htl h2 hcand
        · rcases ihc with hsame | ⟨k, e, hk, hmem, h2, hcand, hsz⟩
          · exact Or.inl hsame
          · exact Or.inr ⟨k, e, hk, List.mem_cons_of_mem _ hmem, h2, hcand, hsz⟩

/-- What a successful fuzzy match guarantees: the returned key belongs to the
store with a sample size of at least 2, it is a Tier B or Tier C candidate,
and its sample size is maximal among all candidates of the store. -/
lemma fuzzyMatch_spec {store : Store} {name k : List Char}
    (h : fuzzyMatch store name = some k) :
    ∃ e, (k, e) ∈ store ∧ 2 ≤ e.sample_size
      ∧ (candTierB (normalizeStrict name) k = true
         ∨ overlapOK (tokensFor name).toFinset k = true)
      ∧ ∀ k' e', (k', e') ∈ store → 2 ≤ e'.sample_size →
          (candTierB (normalizeStrict name) k' = true
           ∨ overlapOK (tokensFor name).toFinset k' = true) →
          e'.sample_size ≤ e.sample_size := by
  unfold fuzzyMatch at h
  by_cases hft : (tokensFor name).toFinset = ∅
  · simp [hft] at h
  · simp only [hft, if_false] at h
    obtain ⟨hmax, hmono, hwit⟩ :=
      fuzzyScan_spec (normalizeStrict name) (tokensFor name).toFinset store none 0
    rcases hwit with hsame | ⟨k1, e, hk1, hmem, h2, hcand, hsz⟩
    · rw [hsame] at h
      simp at h
    · rw [hk1] at h
      obtain hkk := Option.some.inj h
      subst hkk
      refine ⟨e, hmem, h2, hcand, ?_⟩
      intro k' e' hmem' h2' hcand'
      calc e'.sample_size ≤ (fuzzyScan (normalizeStrict name)
              (tokensFor name).toFinset store (none, 0)).2 := hmax k' e' hmem' h2' hcand'
        _ = e.sample_size := hsz.symm

/-- Case analysis of the fuzzy tail of get_calibrated_hours: either the base
estimate is returned, or a fuzzy-matched entry with sample size at least 2 is
averaged. -/
lemma hoursFromFuzzy_cases (store : Store) (name : List Char) (base : ℚ) :
    hoursFromFuzzy store name base = base
    ∨ ∃ k e, fuzzyMatch store name = some k ∧ storeLookup store k = some e
        ∧ 2 ≤ e.sample_size
        ∧ hoursFromFuzzy store name base = e.total_hours / (e.sample_size : ℚ) := by
  rcases h1 : fuzzyMatch store name with _ | k
  · exact Or.inl (by simp [hoursFromFuzzy, h1])
  · rcases h2 : storeLookup store k with _ | e
    · exact Or.inl (by simp [hoursFromFuzzy, h1, h2])
    · by_cases h3 : 2 ≤ e.sample_size
      · exact Or.inr ⟨k, e, rfl, h2, h3, by simp [hoursFromFuzzy, h1, h2, h3]⟩
      · exact Or.inl (by simp [hoursFromFuzzy, h1, h2, h3])

/-- A record returned by the fuzzy branch of get_calibration_info always has
a positive sample size: the source checks the guard before returning. -/
lemma infoFromFuzzy_pos {store : Store} {name : List Char} {j : CalInfo}
    (hj : infoFromFuzzy store name = some j) : 1 ≤ j.sample_size := by
  rcases hf : fuzzyMatch store name with _ | k
  · simp [infoFromFuzzy, hf] at hj
  · rcases hl : storeLookup store k with _ | d
    · simp [infoFromFuzzy, hf, hl] at hj
    · by_cases hpos : 0 < d.sample_size
      · simp only [infoFromFuzzy, hf, hl, hpos, if_true] at hj
        obtain rfl := Option.some.inj hj
        exact hpos
      · simp [infoFromFuzzy, hf, hl, hpos] at hj

/-- Claim C1 counterexample: an entry with sample_size = 1 IS returned by the
exact branch of get_calibration_info, even though 1 < 2. -/
theorem C1_sample_floor_cex :
    getCalibrationInfo [(['x'], ⟨10, 1⟩)] ['x'] = some ⟨10, 1⟩
    ∧ (⟨10, 1⟩ : CalInfo).sample_size < 2 := by
  constructor
  · simp +decide [getCalibrationInfo, storeLookup, normalizeStrict, toLowerM, isStrictChar]
  · decide

/-- Claim C1 (amended): get_calibrated_hours only ever applies an entry whose
sample_size is at least 2 (falling back to the base estimate otherwise), and
_fuzzy_match only returns keys of such entries; get_calibration_info however
guarantees only a positive sample size, so an exact strict-normalized match
with sample_size = 1 is returned by it. -/
theorem C1_sample_floor_amended :
    (∀ (store : Store) (name : List Char) (base : ℚ),
        getCalibratedHours store name base = base
        ∨ ∃ e : CalEntry, 2 ≤ e.sample_size
            ∧ getCalibratedHours store name base = e.total_hours / (e.sample_size : ℚ)
            ∧ (storeLookup store (normalizeStrict name) = some e
               ∨ ∃ k, fuzzyMatch store name = some k ∧ storeLookup store k = some e))
    ∧ (∀ (store : Store) (name k : List Char),
        (store.map Prod.fst).Nodup → fuzzyMatch store name = some k →
        ∃ e, storeLookup store k = some e ∧ 2 ≤ e.sample_size)
    ∧ (∀ (store : Store) (name : List Char) (i : CalInfo),
        getCalibrationInfo store name = some i → 1 ≤ i.sample_size) := by
  refine ⟨?_, ?_, ?_⟩
  · intro store name base
    rcases hl : storeLookup store (normalizeStrict name) with _ | d
    · have hu : getCalibratedHours store name base = hoursFromFuzzy store name base := by
        simp [getCalibratedHours, hl]
      rcases hoursFromFuzzy_cases store name base with hb | ⟨k, e, hf, hlk, h2, hv⟩
      · exact Or.inl (hu.trans hb)
      · exact Or.inr ⟨e, h2, hu.trans hv, Or.inr ⟨k, hf, hlk⟩⟩
    · by_cases h2 : 2 ≤ d.sample_size
      · refine Or.inr ⟨d, h2, ?_, Or.inl rfl⟩
        simp [getCalibratedHours, hl, h2]
      · have hu : getCalibratedHours store name base = hoursFromFuzzy store name base := by
          simp [getCalibratedHours, hl, h2]
        rcases hoursFromFuzzy_cases store name base with hb | ⟨k, e, hf, hlk, h2e, hv⟩
        · exact Or.inl (hu.trans hb)
        · exact Or.inr ⟨e, h2e, hu.trans hv, Or.inr ⟨k, hf, hlk⟩⟩
  · intro store name k hnd hf
    obtain ⟨e, hmem, h2, _, _⟩ := fuzzyMatch_spec hf
    exact ⟨e, storeLookup_of_mem_nodup hnd hmem, h2⟩
  · intro store name i hinfo
    rcases hl : storeLookup store (normalizeStrict name) with _ | d
    · have hu : getCalibrationInfo store name = infoFromFuzzy store name := by
        simp [getCalibrationInfo, hl]
      exact infoFromFuzzy_pos (hu ▸ hinfo)
    · by_cases hpos : 0 < d.sample_size
      · have hu : getCalibrationInfo store name
            = some ⟨d.total_hours / (d.sample_size : ℚ), d.sample_size⟩ := by
          simp [getCalibrationInfo, hl, hpos]
        rw [hu] at hinfo
        obtain rfl := Option.some.inj hinfo
        exact hpos
      · have hu : getCalibrationInfo store name = infoFromFuzzy store name := by
          simp [getCalibrationInfo, hl, hpos]
        exact infoFromFuzzy_pos (hu ▸ hinfo)

/-- Claim C1 witness: the amended theorem evaluated at concrete stores. -/
theorem C1_sample_floor_witness :
    (getCalibratedHours [(['x'], ⟨10, 1⟩)] ['x'] 7 = 7
      ∨ ∃ e : CalEntry, 2 ≤ e.sample_size
          ∧ getCalibratedHours [(['x'], ⟨10, 1⟩)] ['x'] 7 = e.total_hours / (e.sample_size : ℚ)
          ∧ (storeLookup [(['x'], ⟨10, 1⟩)] (normalizeStrict ['x']) = some e
             ∨ ∃ k, fuzzyMatch [(['x'], ⟨10, 1⟩)] ['x'] = some k
                  ∧ storeLookup [(['x'], ⟨10, 1⟩)] k = some e))
    ∧ (∃ e, storeLookup [(['a','b'], ⟨10, 2⟩)] ['a','b'] = some e ∧ 2 ≤ e.sample_size)
    ∧ (1 : ℕ) ≤ (⟨10, 1⟩ : CalInfo).sample_size := by
  refine ⟨C1_sample_floor_amended.1 [(['x'], ⟨10, 1⟩)] ['x'] 7, ?_, ?_⟩
  · exact C1_sample_floor_amended.2.1 [(['a','b'], ⟨10, 2⟩)] ['a','b','c'] ['a','b']
      (by simp)
      (by simp +decide [fuzzyMatch, fuzzyScan, candTierB, containsSub, tokensFor,
            splitWS, splitWSGo, toLowerM, isWordCharM, isSpaceM, STOPWORDS,
            normalizeStrict, isStrictChar])
  · exact C1_sample_floor_amended.2.2 [(['x'], ⟨10, 1⟩)] ['x'] ⟨10, 1⟩
      (by simp +decide [getCalibrationInfo, storeLookup, normalizeStrict, toLowerM,
            isStrictChar])

/-- Claim C2 counterexample: for the query User Management — whose tokens are
all stopwords — the store key usermanagementauth (sample_size 5) is a Tier B
substring candidate with the largest sample size, yet _fuzzy_match returns
none (the empty-token guard fires before the scan) and get_calibrated_hours
falls back to the base estimate, so the candidate with the largest
sample_size is NOT returned. -/
theorem C2_tier_precedence_cex :
    (['u','s','e','r','m','a','n','a','g','e','m','e','n','t','a','u','t','h'],
      (⟨50, 5⟩ : CalEntry)) ∈
        ([(['u','s','e','r','m','a','n','a','g','e','m','e','n','t','a','u','t','h'],
           ⟨50, 5⟩)] : Store)
    ∧ candTierB
        (normalizeStrict ['U','s','e','r',' ','M','a','n','a','g','e','m','e','n','t'])
        ['u','s','e','r','m','a','n','a','g','e','m','e','n','t','a','u','t','h'] = true
    ∧ 2 ≤ (⟨50, 5⟩ : CalEntry).sample_size
    ∧ fuzzyMatch
        [(['u','s','e','r','m','a','n','a','g','e','m','e','n','t','a','u','t','h'], ⟨50, 5⟩)]
        ['U','s','e','r',' ','M','a','n','a','g','e','m','e','n','t'] = none
    ∧ getCalibratedHours
        [(['u','s','e','r','m','a','n','a','g','e','m','e','n','t','a','u','t','h'], ⟨50, 5⟩)]
        ['U','s','e','r',' ','M','a','n','a','g','e','m','e','n','t'] 0 = 0 := by
  refine ⟨by simp, by decide, by decide, ?_, ?_⟩
  · simp +decide [fuzzyMatch, tokensFor, splitWS, splitWSGo, toLowerM, isWordCharM,
      isSpaceM, STOPWORDS]
  · simp +decide [getCalibratedHours, hoursFromFuzzy, fuzzyMatch, storeLookup,
      normalizeStrict, isStrictChar, tokensFor, splitWS, splitWSGo, toLowerM,
      isWordCharM, isSpaceM, STOPWORDS]

/-- Claim C2 (amended): an exact strict-normalized entry with sample_size at
least 2 is returned immediately by get_calibrated_hours regardless of any
fuzzy candidate; a successful fuzzy match is a Tier B or Tier C candidate
with sample_size at least 2 that is maximal in sample_size among all such
candidates; whenever any such candidate exists AND the stopword-filtered
token set of the query is nonempty, the fuzzy matcher does return a key; but
when every token of the query is a stopword the matcher returns none before
scanning any candidate. -/
theorem C2_tier_precedence :
    (∀ (store : Store) (name : List Char) (base : ℚ) (e : CalEntry),
        storeLookup store (normalizeStrict name) = some e → 2 ≤ e.sample_size →
        getCalibratedHours store name base = e.total_hours / (e.sample_size : ℚ))
    ∧ (∀ (store : Store) (name k : List Char),
        (store.map Prod.fst).Nodup → fuzzyMatch store name = some k →
        ∃ e, storeLookup store k = some e ∧ 2 ≤ e.sample_size
          ∧ (candTierB (normalizeStrict name) k = true
             ∨ overlapOK (tokensFor name).toFinset k = true)
          ∧ ∀ k' e', (k', e') ∈ store → 2 ≤ e'.sample_size →
              (candTierB (normalizeStrict name) k' = true
               ∨ overlapOK (tokensFor name).toFinset k' = true) →
              e'.sample_size ≤ e.sample_size)
    ∧ (∀ (store : Store) (name k' : List Char) (e' : CalEntry),
        (k', e') ∈ store → 2 ≤ e'.sample_size →
        (candTierB (normalizeStrict name) k' = true
         ∨ overlapOK (tokensFor name).toFinset k' = true) →
        (tokensFor name).toFinset ≠ ∅ →
        fuzzyMatch store name ≠ none)
    ∧ (∀ (store : Store) (name : List Char),
        (tokensFor name).toFinset = ∅ → fuzzyMatch store name = none) := by
  refine ⟨?_, ?_, ?_, ?_⟩
  · intro store name base e hl h2
    unfold getCalibratedHours
    rw [hl]
    simp [h2]
  · intro store name k hnd hf
    obtain ⟨e, hmem, h2, hcand, hmax⟩ := fuzzyMatch_spec hf
    exact ⟨e, storeLookup_of_mem_nodup hnd hmem, h2, hcand, hmax⟩
  · intro store name k' e' hmem h2 hcand hft hnone
    obtain ⟨hmax, _, hwit⟩ :=
      fuzzyScan_spec (normalizeStrict name) (tokensFor name).toFinset store none 0
    have hres : (fuzzyScan (normalizeStrict name) (tokensFor name).toFinset
        store (none, 0)).1 = none := by
      unfold fuzzyMatch at hnone
      simp only [hft, if_false] at hnone
      exact hnone
    rcases hwit with hsame | ⟨k, e, hk, _, _, _, _⟩
    · have hz : (fuzzyScan (normalizeStrict name) (tokensFor name).toFinset
          store (none, 0)).2 = 0 := by rw [hsame]
      have := hmax k' e' hmem h2 hcand
      omega
    · rw [hres] at hk
      exact Option.noConfusion hk
  · intro store name h
    simp [fuzzyMatch, h]

/-- Claim C2 witness: precedence, fuzzy optimality and the stopword-only
behavior at concrete stores.  In the first store the exact key q (sample 5,
average 10) wins over the substring candidate qx (sample 10). -/
theorem C2_tier_precedence_witness :
    getCalibratedHours [(['q'], ⟨50, 5⟩), (['q','x'], ⟨1000, 10⟩)] ['q'] 0
        = (50 : ℚ) / ((5 : ℕ) : ℚ)
    ∧ (∃ e, storeLookup [(['a','b'], ⟨10, 2⟩)] ['a','b'] = some e ∧ 2 ≤ e.sample_size
          ∧ (candTierB (normalizeStrict ['a','b','c']) ['a','b'] = true
             ∨ overlapOK (tokensFor ['a','b','c']).toFinset ['a','b'] = true)
          ∧ ∀ k' e', (k', e') ∈ ([(['a','b'], ⟨10, 2⟩)] : Store) → 2 ≤ e'.sample_size →
              (candTierB (normalizeStrict ['a','b','c']) k' = true
               ∨ overlapOK (tokensFor ['a','b','c']).toFinset k' = true) →
              e'.sample_size ≤ e.sample_size)
    ∧ fuzzyMatch [(['a','b'], ⟨10, 2⟩)] ['a','b','c'] ≠ none
    ∧ fuzzyMatch
        [(['u','s','e','r','m','a','n','a','g','e','m','e','n','t','a','u','t','h'],
          (⟨50, 5⟩ : CalEntry))]
        ['U','s','e','r',' ','M','a','n','a','g','e','m','e','n','t'] = none := by
  refine ⟨?_, ?_, ?_, ?_⟩
  · exact C2_tier_precedence.1 [(['q'], ⟨50, 5⟩), (['q','x'], ⟨1000, 10⟩)] ['q'] 0 ⟨50, 5⟩
      (by simp +decide [storeLookup, normalizeStrict, toLowerM, isStrictChar])
      (by decide)
  · exact C2_tier_precedence.2.1 [(['a','b'], ⟨10, 2⟩)] ['a','b','c'] ['a','b']
      (by simp)
      (by simp +decide [fuzzyMatch, fuzzyScan, candTierB, containsSub, tokensFor,
            splitWS, splitWSGo, toLowerM, isWordCharM, isSpaceM, STOPWORDS,
            normalizeStrict, isStrictChar])
  · exact C2_tier_precedence.2.2.1 [(['a','b'], ⟨10, 2⟩)] ['a','b','c'] ['a','b'] ⟨10, 2⟩
      (by simp)
      (by decide)
      (Or.inl (by decide))
      (by simp +decide [tokensFor, splitWS, splitWSGo, toLowerM, isWordCharM,
            isSpaceM, STOPWORDS])
  · exact C2_tier_precedence.2.2.2
      [(['u','s','e','r','m','a','n','a','g','e','m','e','n','t','a','u','t','h'], ⟨50, 5⟩)]
      ['U','s','e','r',' ','M','a','n','a','g','e','m','e','n','t']
      (by simp +decide [tokensFor, splitWS, splitWSGo, toLowerM, isWordCharM,
            isSpaceM, STOPWORDS])

/-- Claim C10: strict name normalization is idempotent, hence every key stored
under a strict-normalized name is a fixed point of the normalization. -/
theorem C10_normalizeStrict_idempotent :
    ∀ s : List Char, normalizeStrict (normalizeStrict s) = normalizeStrict s := by
  intro s
  unfold normalizeStrict
  have hfix : ∀ c ∈ (s.map toLowerM).filter isStrictChar, toLowerM c = c := by
    intro c hc
    have hstrict : isStrictChar c = true := (List.mem_filter.mp hc).2
    unfold isStrictChar at hstrict
    unfold toLowerM
    have : ¬ (65 ≤ c.toNat && c.toNat ≤ 90) = true := by
      simp only [Bool.or_eq_true, Bool.and_eq_true, decide_eq_true_eq] at hstrict ⊢
      omega
    simp [this]
  have hmap : ((s.map toLowerM).filter isStrictChar).map toLowerM
      = (s.map toLowerM).filter isStrictChar := by
    calc ((s.map toLowerM).filter isStrictChar).map toLowerM
        = ((s.map toLowerM).filter isStrictChar).map id := List.map_congr_left hfix
      _ = (s.map toLowerM).filter isStrictChar := List.map_id _
  rw [hmap]
  apply List.filter_eq_self.mpr
  intro c hc
  exact (List.mem_filter.mp hc).2

/-- Claim C9: the team recommendation follows the specified formula (clamp
non-positive timelines to 1 week, 40 hours per engineer per week, engineer
count floored at 2, role counts derived by the stated ceilings and floor
division), and 220 hours over 4 weeks yields one frontend, one backend, one QA
and one PM. -/
theorem C9_team_recommendation :
    (∀ total_hours timeline_weeks : ℚ,
        computeTeamRecommendation total_hours timeline_weeks
          = teamRecSpecFormula total_hours timeline_weeks)
    ∧ computeTeamRecommendation 220 4 = ⟨1, 1, 1, 1⟩ := by
  refine ⟨fun th tw => rfl, ?_⟩
  have h0 : ((220:ℚ) / ((if (4:ℚ) ≤ 0 then 1 else 4) * 40)) = 11/8 := by norm_num
  have hceil : (⌈(220:ℚ) / ((if (4:ℚ) ≤ 0 then 1 else 4) * 40)⌉ : ℤ) = 2 := by
    rw [h0, Int.ceil_eq_iff]; norm_num
  simp only [computeTeamRecommendation, hceil]
  norm_num
  decide

/-- The coverage ratio is nonnegative. -/
lemma coverageScore_nonneg (fs : List ConfFeature) : 0 ≤ coverageScore fs := by
  unfold coverageScore
  by_cases h : fs = []
  · simp [h]
  · simp only [h, if_false]
    positivity

/-- The strength ratio is nonnegative. -/
lemma strengthScore_nonneg (fs : List ConfFeature) (eng : Option Store) :
    0 ≤ strengthScore fs eng := by
  unfold strengthScore
  by_cases h : fs = []
  · simp [h]
  · simp only [h, if_false]
    cases eng with
    | none => norm_num
    | some store => positivity

/-- Claim C6: the confidence score is min((coverage * 0.6 + strength * 0.4) *
100, 95) for a nonempty feature list, the strength ratio defaults to 0.5 when
no calibration engine is supplied, the empty feature list yields 0.0, and the
result always lies between 0.0 and 95.0. -/
theorem C6_confidence_formula :
    (∀ (fs : List ConfFeature) (dc : ℚ) (eng : Option Store), fs ≠ [] →
        calculateConfidence fs dc eng
          = min ((coverageScore fs * (6/10) + strengthScore fs eng * (4/10)) * 100) 95)
    ∧ (∀ fs : List ConfFeature, fs ≠ [] → strengthScore fs none = 1/2)
    ∧ (∀ (dc : ℚ) (eng : Option Store), calculateConfidence [] dc eng = 0)
    ∧ (∀ (fs : List ConfFeature) (dc : ℚ) (eng : Option Store),
        0 ≤ calculateConfidence fs dc eng ∧ calculateConfidence fs dc eng ≤ 95) := by
  refine ⟨?_, ?_, ?_, ?_⟩
  · intro fs dc eng h
    simp [calculateConfidence, h]
  · intro fs h
    simp [strengthScore, h]
  · intro dc eng
    simp [calculateConfidence]
  · intro fs dc eng
    by_cases h : fs = []
    · simp [calculateConfidence, h]
    · have hle : calculateConfidence fs dc eng
          = min ((coverageScore fs * (6/10) + strengthScore fs eng * (4/10)) * 100) 95 := by
        simp [calculateConfidence, h]
      rw [hle]
      constructor
      · apply le_min
        · have h1 := coverageScore_nonneg fs
          have h2 := strengthScore_nonneg fs eng
          have ha : 0 ≤ coverageScore fs * (6/10) := by positivity
          have hb : 0 ≤ strengthScore fs eng * (4/10) := by positivity
          nlinarith
        · norm_num
      · exact min_le_right _ _

/-- Claim C6 witness: the formula evaluated on a singleton calibrated feature
with no calibration engine supplied. -/
theorem C6_confidence_formula_witness :
    calculateConfidence [⟨['a'], true⟩] 0 none
      = min ((coverageScore [⟨['a'], true⟩] * (6/10)
          + strengthScore [⟨['a'], true⟩] none * (4/10)) * 100) 95
    ∧ strengthScore [(⟨['a'], true⟩ : ConfFeature)] none = 1/2
    ∧ calculateConfidence [] 0 none = 0
    ∧ 0 ≤ calculateConfidence [⟨['a'], true⟩] 0 none
    ∧ calculateConfidence [⟨['a'], true⟩] 0 none ≤ 95 := by
  refine ⟨C6_confidence_formula.1 [⟨['a'], true⟩] 0 none (by simp),
    C6_confidence_formula.2.1 [⟨['a'], true⟩] (by simp),
    C6_confidence_formula.2.2.1 0 none,
    (C6_confidence_formula.2.2.2 [⟨['a'], true⟩] 0 none).1,
    (C6_confidence_formula.2.2.2 [⟨['a'], true⟩] 0 none).2⟩

/-- Claim C8 counterexample (negation of the claim): there is NO feature list,
calibration store and pair of domain-confidence inputs on which the confidence
outputs differ, because calculate_confidence never reads its
domain_confidence argument. -/
theorem C8_domain_confidence_cex :
    ¬ ∃ (fs : List ConfFeature) (eng : Option Store) (d1 d2 : ℚ),
        calculateConfidence fs d1 eng ≠ calculateConfidence fs d2 eng := by
  rintro ⟨fs, eng, d1, d2, h⟩
  exact h rfl

/-- Claim C8 (amended): the confidence output is independent of the
domain-confidence argument: the parameter is accepted but never used. -/
theorem C8_domain_confidence_amended :
    ∀ (fs : List ConfFeature) (d1 d2 : ℚ) (eng : Option Store),
      calculateConfidence fs d1 eng = calculateConfidence fs d2 eng :=
  fun _ _ _ _ => rfl

/-- The subfeature outputs of the calibration pass: a non-pending output is a
calibrated one (trustworthy entry found, buffered average as effort), and a
pending output has no trustworthy calibration for its name. -/
lemma pass1Subs_spec (store : Store) (fname cplx : List Char) :
    ∀ (names : List (List Char)) (s : SubOut),
      s ∈ (pass1Subs store fname cplx names).1 →
      (s.pending = false → s.was_calibrated = true
        ∧ ∃ i, getCalibrationInfo store s.name = some i ∧ 2 ≤ i.sample_size
            ∧ s.effort = roundTo1 (i.avg_hours * (6/5)))
      ∧ (s.pending = true → s.was_calibrated = false ∧ s.effort = 0
        ∧ ∀ i, getCalibrationInfo store s.name = some i → i.sample_size < 2) := by
  intro names
  induction names with
  | nil => intro s hs; simp [pass1Subs] at hs
  | cons n rest ih =>
    intro s hs
    by_cases hn : n = []
    · rw [show pass1Subs store fname cplx (n :: rest) = pass1Subs store fname cplx rest
        from by simp [pass1Subs, hn]] at hs
      exact ih s hs
    · rcases hi : getCalibrationInfo store n with _ | info
      · have hstep : (pass1Subs store fname cplx (n :: rest)).1
            = ⟨n, 0, false, true⟩ :: (pass1Subs store fname cplx rest).1 := by
          simp [pass1Subs, hn, hi]
        rw [hstep] at hs
        rcases List.mem_cons.mp hs with rfl | htl
        · refine ⟨fun hp => by simp at hp, fun _ => ⟨rfl, rfl, fun i hii => ?_⟩⟩
          rw [hi] at hii
          exact Option.noConfusion hii
        · exact ih s htl
      · by_cases h2 : 2 ≤ info.sample_size
        · have hstep : (pass1Subs store fname cplx (n :: rest)).1
              = ⟨n, roundTo1 (info.avg_hours * (6/5)), true, false⟩
                :: (pass1Subs store fname cplx rest).1 := by
            simp [pass1Subs, hn, hi, h2]
          rw [hstep] at hs
          rcases List.mem_cons.mp hs with rfl | htl
          · exact ⟨fun _ => ⟨rfl, info, hi, h2, rfl⟩, fun hp => by simp at hp⟩
          · exact ih s htl
        · have hstep : (pass1Subs store fname cplx (n :: rest)).1
              = ⟨n, 0, false, true⟩ :: (pass1Subs store fname cplx rest).1 := by
            simp [pass1Subs, hn, hi, h2]
          rw [hstep] at hs
          rcases List.mem_cons.mp hs with rfl | htl
          · refine ⟨fun hp => by simp at hp, fun _ => ⟨rfl, rfl, fun i hii => ?_⟩⟩
            rw [hi] at hii
            obtain rfl := Option.some.inj hii
            omega
          · exact ih s htl

/-- When the calibration pass deferred nothing, it left no pending outputs. -/
lemma pass1Subs_items_nil (store : Store) (fname cplx : List Char) :
    ∀ (names : List (List Char)),
      (pass1Subs store fname cplx names).2.2.2 = [] →
      ∀ s ∈ (pass1Subs store fname cplx names).1, s.pending = false := by
  intro names
  induction names with
  | nil => intro _ s hs; simp [pass1Subs] at hs
  | cons n rest ih =>
    intro hit s hs
    by_cases hn : n = []
    · rw [show pass1Subs store fname cplx (n :: rest) = pass1Subs store fname cplx rest
        from by simp [pass1Subs, hn]] at hit hs
      exact ih hit s hs
    · rcases hi : getCalibrationInfo store n with _ | info
      · have hstep : (pass1Subs store fname cplx (n :: rest)).2.2.2
            = ⟨fname, n, cplx⟩ :: (pass1Subs store fname cplx rest).2.2.2 := by
          simp [pass1Subs, hn, hi]
        rw [hstep] at hit
        exact absurd hit (List.cons_ne_nil _ _)
      · by_cases h2 : 2 ≤ info.sample_size
        · have hstep1 : (pass1Subs store fname cplx (n :: rest)).1
              = ⟨n, roundTo1 (info.avg_hours * (6/5)), true, false⟩
                :: (pass1Subs store fname cplx rest).1 := by
            simp [pass1Subs, hn, hi, h2]
          have hstep2 : (pass1Subs store fname cplx (n :: rest)).2.2.2
              = (pass1Subs store fname cplx rest).2.2.2 := by
            simp [pass1Subs, hn, hi, h2]
          rw [hstep2] at hit
          rw [hstep1] at hs
          rcases List.mem_cons.mp hs with rfl | htl
          · rfl
          · exact ih hit s htl
        · have hstep : (pass1Subs store fname cplx (n :: rest)).2.2.2
              = ⟨fname, n, cplx⟩ :: (pass1Subs store fname cplx rest).2.2.2 := by
            simp [pass1Subs, hn, hi, h2]
          rw [hstep] at hit
          exact absurd hit (List.cons_ne_nil _ _)

/-- The calibration pass produces no subfeature output exactly when every
effective subfeature name is empty. -/
lemma pass1Subs_nil_iff (store : Store) (fname cplx : List Char) :
    ∀ names : List (List Char),
      (pass1Subs store fname cplx names).1 = [] ↔ ∀ n ∈ names, n = [] := by
  intro names
  induction names with
  | nil => simp [pass1Subs]
  | cons n rest ih =>
    by_cases hn : n = []
    · rw [show pass1Subs store fname cplx (n :: rest) = pass1Subs store fname cplx rest
        from by simp [pass1Subs, hn]]
      simp [hn, ih]
    · constructor
      · intro hnil
        exfalso
        rcases hi : getCalibrationInfo store n with _ | info
        · rw [show (pass1Subs store fname cplx (n :: rest)).1
              = ⟨n, 0, false, true⟩ :: (pass1Subs store fname cplx rest).1
              from by simp [pass1Subs, hn, hi]] at hnil
          exact List.cons_ne_nil _ _ hnil
        · by_cases h2 : 2 ≤ info.sample_size
          · rw [show (pass1Subs store fname cplx (n :: rest)).1
                = ⟨n, roundTo1 (info.avg_hours * (6/5)), true, false⟩
                  :: (pass1Subs store fname cplx rest).1
                from by simp [pass1Subs, hn, hi, h2]] at hnil
            exact List.cons_ne_nil _ _ hnil
          · rw [show (pass1Subs store fname cplx (n :: rest)).1
                = ⟨n, 0, false, true⟩ :: (pass1Subs store fname cplx rest).1
                from by simp [pass1Subs, hn, hi, h2]] at hnil
            exact List.cons_ne_nil _ _ hnil
      · intro hall
        exact absurd (hall n (List.mem_cons_self _ _)) hn

/-- The feature outputs of the first pass are the per-feature outputs. -/
lemma pass1_fst (store : Store) :
    ∀ fs : List FeatureIn,
      (pass1 store fs).1 = fs.map (fun f => (pass1Feature store f).1) := by
  intro fs
  induction fs with
  | nil => simp [pass1]
  | cons f rest ih => simp [pass1, ih]

/-- The deferred items of the first pass are the per-feature items,
concatenated in order. -/
lemma pass1_snd (store : Store) (f : FeatureIn) (rest : List FeatureIn) :
    (pass1 store (f :: rest)).2 = (pass1Feature store f).2 ++ (pass1 store rest).2 := by
  simp [pass1]

/-- The subfeature list of a first-pass feature output is the output of the
calibration pass over the effective subfeature names. -/
lemma pass1Feature_subfeatures (store : Store) (f : FeatureIn) :
    (pass1Feature store f).1.subfeatures
      = (pass1Subs store f.name (f.complexity.map toLowerM) (effectiveSubs f)).1 := rfl

/-- The deferred items of a first-pass feature output. -/
lemma pass1Feature_items (store : Store) (f : FeatureIn) :
    (pass1Feature store f).2
      = (pass1Subs store f.name (f.complexity.map toLowerM) (effectiveSubs f)).2.2.2 := rfl

/-- Subfeature property transport to the feature outputs of the first pass. -/
lemma pass1_sub_spec (store : Store) (fs : List FeatureIn) :
    ∀ fo ∈ (pass1 store fs).1, ∀ s ∈ fo.subfeatures,
      (s.pending = false → s.was_calibrated = true
        ∧ ∃ i, getCalibrationInfo store s.name = some i ∧ 2 ≤ i.sample_size
            ∧ s.effort = roundTo1 (i.avg_hours * (6/5)))
      ∧ (s.pending = true → s.was_calibrated = false ∧ s.effort = 0
        ∧ ∀ i, getCalibrationInfo store s.name = some i → i.sample_size < 2) := by
  intro fo hfo s hs
  rw [pass1_fst] at hfo
  obtain ⟨f, _, rfl⟩ := List.mem_map.mp hfo
  rw [pass1Feature_subfeatures] at hs
  exact pass1Subs_spec store f.name (f.complexity.map toLowerM) (effectiveSubs f) s hs

/-- When the whole first pass deferred nothing, no subfeature output is
pending. -/
lemma pass1_items_nil (store : Store) :
    ∀ fs : List FeatureIn, (pass1 store fs).2 = [] →
      ∀ fo ∈ (pass1 store fs).1, ∀ s ∈ fo.subfeatures, s.pending = false := by
  intro fs
  induction fs with
  | nil => intro _ fo hfo; simp [pass1] at hfo
  | cons f rest ih =>
    intro hit fo hfo s hs
    rw [pass1_snd] at hit
    obtain ⟨hit1, hit2⟩ := List.append_eq_nil.mp hit
    have hcons : (pass1 store (f :: rest)).1
        = (pass1Feature store f).1 :: (pass1 store rest).1 := by
      simp [pass1]
    rw [hcons] at hfo
    rcases List.mem_cons.mp hfo with rfl | htl
    · rw [pass1Feature_subfeatures] at hs
      rw [pass1Feature_items] at hit1
      exact pass1Subs_items_nil store f.name (f.complexity.map toLowerM)
        (effectiveSubs f) hit1 s hs
    · exact ih hit2 fo htl s hs

/-- Every output of the fill pass descends from an input subfeature with the
same name and calibration flag; a non-pending input passes through unchanged. -/
lemma fillSubs_origin :
    ∀ (subs : List SubOut) (ests : List ℚ) (tot : ℚ) (s' : SubOut),
      s' ∈ (fillSubs ests tot subs).1 →
      ∃ s, s ∈ subs ∧ s'.name = s.name ∧ s'.was_calibrated = s.was_calibrated
        ∧ (s.pending = false → s' = s) := by
  intro subs
  induction subs with
  | nil => intro ests tot s' h; simp [fillSubs] at h
  | cons s0 rest ih =>
    intro ests tot s' h
    by_cases hp : s0.pending = true
    · cases ests with
      | nil =>
        rw [show (fillSubs [] tot (s0 :: rest)).1
            = ⟨s0.name, roundTo1 (16 * (6/5)), s0.was_calibrated, false⟩
              :: (fillSubs [] (roundTo1 (tot + roundTo1 (16 * (6/5)))) rest).1
            from by simp [fillSubs, hp]] at h
        rcases List.mem_cons.mp h with rfl | htl
        · exact ⟨s0, List.mem_cons_self _ _, rfl, rfl,
            fun hnp => by rw [hnp] at hp; exact absurd hp (by simp)⟩
        · obtain ⟨s, hsm, h1, h2, h3⟩ := ih _ _ _ htl
          exact ⟨s, List.mem_cons_of_mem _ hsm, h1, h2, h3⟩
      | cons h0 hrest =>
        rw [show (fillSubs (h0 :: hrest) tot (s0 :: rest)).1
            = ⟨s0.name, roundTo1 (h0 * (6/5)), s0.was_calibrated, false⟩
              :: (fillSubs hrest (roundTo1 (tot + roundTo1 (h0 * (6/5)))) rest).1
            from by simp [fillSubs, hp]] at h
        rcases List.mem_cons.mp h with rfl | htl
        · exact ⟨s0, List.mem_cons_self _ _, rfl, rfl,
            fun hnp => by rw [hnp] at hp; exact absurd hp (by simp)⟩
        · obtain ⟨s, hsm, h1, h2, h3⟩ := ih _ _ _ htl
          exact ⟨s, List.mem_cons_of_mem _ hsm, h1, h2, h3⟩
    · rw [show (fillSubs ests tot (s0 :: rest)).1 = s0 :: (fillSubs ests tot rest).1
          from by simp [fillSubs, hp]] at h
      rcases List.mem_cons.mp h with heq | htl
      · exact ⟨s0, List.mem_cons_self _ _, by rw [heq], by rw [heq], fun _ => heq⟩
      · obtain ⟨s, hsm, h1, h2, h3⟩ := ih _ _ _ htl
        exact ⟨s, List.mem_cons_of_mem _ hsm, h1, h2, h3⟩

/-- When every available raw estimate is the 16.0 fallback and non-pending
inputs are calibrated, every non-calibrated output of the fill pass carries
the buffered fallback effort, and the remaining estimates are still all 16. -/
lemma fillSubs_sixteen :
    ∀ (subs : List SubOut) (ests : List ℚ) (tot : ℚ),
      (∀ x ∈ ests, x = (16 : ℚ)) →
      (∀ s ∈ subs, s.pending = false → s.was_calibrated = true) →
      (∀ s' ∈ (fillSubs ests tot subs).1, s'.was_calibrated = false →
          s'.effort = roundTo1 ((16 : ℚ) * (6/5)))
      ∧ (∀ x ∈ (fillSubs ests tot subs).2.2, x = (16 : ℚ)) := by
  intro subs
  induction subs with
  | nil =>
    intro ests tot h16 _
    refine ⟨fun s' h => by simp [fillSubs] at h, fun x hx => h16 x ?_⟩
    simpa [fillSubs] using hx
  | cons s0 rest ih =>
    intro ests tot h16 hinv
    have hinvr : ∀ s ∈ rest, s.pending = false → s.was_calibrated = true :=
      fun s hsm => hinv s (List.mem_cons_of_mem _ hsm)
    by_cases hp : s0.pending = true
    · cases ests with
      | nil =>
        obtain ⟨ih1, ih2⟩ := ih [] (roundTo1 (tot + roundTo1 (16 * (6/5))))
          (by intro x hx; simp at hx) hinvr
        have hstep1 : (fillSubs [] tot (s0 :: rest)).1
            = ⟨s0.name, roundTo1 (16 * (6/5)), s0.was_calibrated, false⟩
              :: (fillSubs [] (roundTo1 (tot + roundTo1 (16 * (6/5)))) rest).1 := by
          simp [fillSubs, hp]
        have hstep2 : (fillSubs [] tot (s0 :: rest)).2.2
            = (fillSubs [] (roundTo1 (tot + roundTo1 (16 * (6/5)))) rest).2.2 := by
          simp [fillSubs, hp]
        refine ⟨?_, by rw [hstep2]; exact ih2⟩
        intro s' h hwc
        rw [hstep1] at h
        rcases List.mem_cons.mp h with rfl | htl
        · rfl
        · exact ih1 s' htl hwc
      | cons h0 hrest =>
        have h0eq : h0 = 16 := h16 h0 (List.mem_cons_self _ _)
        subst h0eq
        obtain ⟨ih1, ih2⟩ := ih hrest (roundTo1 (tot + roundTo1 (16 * (6/5))))
          (fun x hx => h16 x (List.mem_cons_of_mem _ hx)) hinvr
        have hstep1 : (fillSubs (16 :: hrest) tot (s0 :: rest)).1
            = ⟨s0.name, roundTo1 (16 * (6/5)), s0.was_calibrated, false⟩
              :: (fillSubs hrest (roundTo1 (tot + roundTo1 (16 * (6/5)))) rest).1 := by
          simp [fillSubs, hp]
        have hstep2 : (fillSubs (16 :: hrest) tot (s0 :: rest)).2.2
            = (fillSubs hrest (roundTo1 (tot + roundTo1 (16 * (6/5)))) rest).2.2 := by
          simp [fillSubs, hp]
        refine ⟨?_, by rw [hstep2]; exact ih2⟩
        intro s' h hwc
        rw [hstep1] at h
        rcases List.mem_cons.mp h with rfl | htl
        · rfl
        · exact ih1 s' htl hwc
    · have hpf : s0.pending = false := by
        cases hpv : s0.pending
        · rfl
        · exact absurd hpv hp
      obtain ⟨ih1, ih2⟩ := ih ests tot h16 hinvr
      have hstep1 : (fillSubs ests tot (s0 :: rest)).1 = s0 :: (fillSubs ests tot rest).1 := by
        simp [fillSubs, hp]
      have hstep2 : (fillSubs ests tot (s0 :: rest)).2.2 = (fillSubs ests tot rest).2.2 := by
        simp [fillSubs, hp]
      refine ⟨?_, by rw [hstep2]; exact ih2⟩
      intro s' h hwc
      rw [hstep1] at h
      rcases List.mem_cons.mp h with heq | htl
      · have hwc0 : s0.was_calibrated = false := by rw [← heq]; exact hwc
        have hwt := hinv s0 (List.mem_cons_self _ _) hpf
        rw [hwt] at hwc0
        exact absurd hwc0 (by simp)
      · exact ih1 s' htl hwc

/-- The fill pass preserves the number of subfeatures. -/
lemma fillSubs_length :
    ∀ (subs : List SubOut) (ests : List ℚ) (tot : ℚ),
      (fillSubs ests tot subs).1.length = subs.length := by
  intro subs
  induction subs with
  | nil => intro ests tot; simp [fillSubs]
  | cons s0 rest ih =>
    intro ests tot
    by_cases hp : s0.pending = true
    · cases ests with
      | nil => simp [fillSubs, hp, ih]
      | cons h0 hrest => simp [fillSubs, hp, ih]
    · simp [fillSubs, hp, ih]

/-- Every output feature of the fill pass descends from an input feature, and
each of its subfeatures descends from a subfeature of that input feature. -/
lemma fillFeatures_subs :
    ∀ (fos : List FeatOut) (ests : List ℚ) (fo' : FeatOut),
      fo' ∈ (fillFeatures ests fos).1 →
      ∃ fo, fo ∈ fos ∧ ∀ s' ∈ fo'.subfeatures,
        ∃ s, s ∈ fo.subfeatures ∧ s'.name = s.name
          ∧ s'.was_calibrated = s.was_calibrated ∧ (s.pending = false → s' = s) := by
  intro fos
  induction fos with
  | nil => intro ests fo' h; simp [fillFeatures] at h
  | cons fo0 rest ih =>
    intro ests fo' h
    have hstep : (fillFeatures ests (fo0 :: rest)).1
        = ⟨fo0.name, fo0.complexity, (fillSubs ests fo0.total_hours fo0.subfeatures).2.1,
           (fillSubs ests fo0.total_hours fo0.subfeatures).1, fo0.was_calibrated⟩
          :: (fillFeatures (fillSubs ests fo0.total_hours fo0.subfeatures).2.2 rest).1 := by
      simp [fillFeatures]
    rw [hstep] at h
    rcases List.mem_cons.mp h with heq | htl
    · refine ⟨fo0, List.mem_cons_self _ _, ?_⟩
      intro s' hs'
      rw [heq] at hs'
      exact fillSubs_origin fo0.subfeatures ests fo0.total_hours s' hs'
    · obtain ⟨fo, hfo, hmap⟩ := ih _ _ htl
      exact ⟨fo, List.mem_cons_of_mem _ hfo, hmap⟩

/-- When every raw estimate is 16.0 and non-pending inputs are calibrated,
every non-calibrated subfeature of the fill-pass output carries the buffered
fallback effort. -/
lemma fillFeatures_sixteen :
    ∀ (fos : List FeatOut) (ests : List ℚ),
      (∀ x ∈ ests, x = (16 : ℚ)) →
      (∀ fo ∈ fos, ∀ s ∈ fo.subfeatures, s.pending = false → s.was_calibrated = true) →
      ∀ fo' ∈ (fillFeatures ests fos).1, ∀ s' ∈ fo'.subfeatures,
        s'.was_calibrated = false → s'.effort = roundTo1 ((16 : ℚ) * (6/5)) := by
  intro fos
  induction fos with
  | nil => intro ests _ _ fo' h; simp [fillFeatures] at h
  | cons fo0 rest ih =>
    intro ests h16 hinv fo' h s' hs' hwc
    obtain ⟨hfill1, hfill2⟩ := fillSubs_sixteen fo0.subfeatures ests fo0.total_hours h16
      (hinv fo0 (List.mem_cons_self _ _))
    have hstep : (fillFeatures ests (fo0 :: rest)).1
        = ⟨fo0.name, fo0.complexity, (fillSubs ests fo0.total_hours fo0.subfeatures).2.1,
           (fillSubs ests fo0.total_hours fo0.subfeatures).1, fo0.was_calibrated⟩
          :: (fillFeatures (fillSubs ests fo0.total_hours fo0.subfeatures).2.2 rest).1 := by
      simp [fillFeatures]
    rw [hstep] at h
    rcases List.mem_cons.mp h with heq | htl
    · rw [heq] at hs'
      exact hfill1 s' hs' hwc
    · exact ih _ hfill2 (fun fo hfo => hinv fo (List.mem_cons_of_mem _ hfo)) fo' htl s' hs' hwc

/-- The fill pass preserves the length of per-feature subfeature lists. -/
lemma fillFeatures_forall2 :
    ∀ (fos : List FeatOut) (ests : List ℚ),
      List.Forall₂ (fun fo fo' => fo'.subfeatures.length = fo.subfeatures.length)
        fos (fillFeatures ests fos).1 := by
  intro fos
  induction fos with
  | nil => intro ests; simp [fillFeatures]
  | cons fo0 rest ih =>
    intro ests
    have hstep : (fillFeatures ests (fo0 :: rest)).1
        = ⟨fo0.name, fo0.complexity, (fillSubs ests fo0.total_hours fo0.subfeatures).2.1,
           (fillSubs ests fo0.total_hours fo0.subfeatures).1, fo0.was_calibrated⟩
          :: (fillFeatures (fillSubs ests fo0.total_hours fo0.subfeatures).2.2 rest).1 := by
      simp [fillFeatures]
    rw [hstep]
    exact List.Forall₂.cons (fillSubs_length fo0.subfeatures ests fo0.total_hours) (ih _)

/-- The features returned by execute for a nonempty input: the first-pass
outputs, run through the fill pass when any item was deferred. -/
lemma executeE_features (store : Store) (fs : List FeatureIn)
    (resp : Option (List (Option ℚ))) (h : fs ≠ []) :
    (executeE store fs resp).features
      = if (pass1 store fs).2 = [] then (pass1 store fs).1
        else (fillFeatures (llmEstimateBatch (pass1 store fs).2 resp) (pass1 store fs).1).1 := by
  simp [executeE, h]

/-- The empty store never yields calibration info. -/
lemma getCalibrationInfo_nil (n : List Char) : getCalibrationInfo [] n = none := by
  simp [getCalibrationInfo, infoFromFuzzy, fuzzyMatch, fuzzyScan, storeLookup]

/-- Claim C3: every output subfeature whose name has a trustworthy calibration
entry (info present, sample_size at least 2) carries effort
round(avg_hours * 1.20, 1) with the buffer applied exactly once and is marked
calibrated; an average of 100 hours yields effort 120.0; and the store entry
oauthlogin with total 200 over 4 samples gives the OAuth Login subfeature
effort 60.0 (Scenario A). -/
theorem C3_calibrated_effort :
    (∀ (store : Store) (fs : List FeatureIn) (resp : Option (List (Option ℚ)))
        (feat : FeatOut) (sf : SubOut) (info : CalInfo),
        feat ∈ (executeE store fs resp).features → sf ∈ feat.subfeatures →
        getCalibrationInfo store sf.name = some info → 2 ≤ info.sample_size →
        sf.effort = roundTo1 (info.avg_hours * (6/5)) ∧ sf.was_calibrated = true)
    ∧ ((executeE [(['x'], ⟨200, 2⟩)] [⟨['x'], ['l','o','w'], [['x']]⟩] none).features.map
        (fun fo => fo.subfeatures.map (fun s => (s.effort, s.was_calibrated))))
        = [[((120 : ℚ), true)]]
    ∧ executeE [(['o','a','u','t','h','l','o','g','i','n'], ⟨200, 4⟩)]
        [⟨['L','o','g','i','n'], ['M','e','d','i','u','m'],
          [['O','A','u','t','h',' ','L','o','g','i','n']]⟩] none
        = ⟨60, 51, 69,
           [⟨['L','o','g','i','n'], ['M','e','d','i','u','m'], 60,
             [⟨['O','A','u','t','h',' ','L','o','g','i','n'], 60, true, false⟩], true⟩]⟩ := by
  refine ⟨?_, ?_, ?_⟩
  · intro store fs resp feat sf info hfeat hsf hinfo h2
    by_cases hfs : fs = []
    · subst hfs
      simp [executeE] at hfeat
    · rw [executeE_features store fs resp hfs] at hfeat
      have horig : ∃ s, (∃ fo ∈ (pass1 store fs).1, s ∈ fo.subfeatures)
          ∧ sf.name = s.name ∧ sf.was_calibrated = s.was_calibrated
          ∧ (s.pending = false → sf = s) := by
        by_cases hit : (pass1 store fs).2 = []
        · rw [if_pos hit] at hfeat
          exact ⟨sf, ⟨feat, hfeat, hsf⟩, rfl, rfl, fun _ => rfl⟩
        · rw [if_neg hit] at hfeat
          obtain ⟨fo, hfo, hmap⟩ := fillFeatures_subs (pass1 store fs).1 _ feat hfeat
          obtain ⟨s, hsm, h1, h2', h3⟩ := hmap sf hsf
          exact ⟨s, ⟨fo, hfo, hsm⟩, h1, h2', h3⟩
      obtain ⟨s, ⟨fo, hfo, hsm⟩, hname, hwc, hpass⟩ := horig
      have hspec := pass1_sub_spec store fs fo hfo s hsm
      cases hpv : s.pending with
      | false =>
        have heq := hpass hpv
        obtain ⟨hwc', i, hi, h2i, heff⟩ := hspec.1 hpv
        rw [heq] at hinfo
        rw [hi] at hinfo
        obtain rfl := Option.some.inj hinfo
        exact ⟨by rw [heq, heff], by rw [heq, hwc']⟩
      | true =>
        obtain ⟨hwcf, _, hlt⟩ := hspec.2 hpv
        rw [hname] at hinfo
        have := hlt info hinfo
        omega
  · have hinfo2 : getCalibrationInfo [(['x'], ⟨200, 2⟩)] ['x'] = some ⟨200/2, 2⟩ := by
      simp +decide [getCalibrationInfo, storeLookup, normalizeStrict, toLowerM, isStrictChar]
    have hr : roundTo1 (120 : ℚ) = 120 := by
      have := roundTo1_eval 120 1200 (by norm_num) (by norm_num)
      rw [this]; norm_num
    have havg : ((200 : ℚ)/2) * (6/5) = 120 := by norm_num
    simp +decide [executeE, pass1, pass1Feature, pass1Subs, effectiveSubs, hinfo2, havg, hr,
      capitalizeM, toUpperM, toLowerM]
  · have hinfo3 : getCalibrationInfo [(['o','a','u','t','h','l','o','g','i','n'], ⟨200, 4⟩)]
        ['O','A','u','t','h',' ','L','o','g','i','n'] = some ⟨200/4, 4⟩ := by
      simp +decide [getCalibrationInfo, storeLookup, normalizeStrict, toLowerM, isStrictChar]
    have havg : ((200 : ℚ)/4) * (6/5) = 60 := by norm_num
    have hr : roundTo1 (60 : ℚ) = 60 := by
      have := roundTo1_eval 60 600 (by norm_num) (by norm_num)
      rw [this]; norm_num
    simp +decide [executeE, pass1, pass1Feature, pass1Subs, effectiveSubs, hinfo3, havg, hr,
      capitalizeM, toUpperM, toLowerM]
    norm_num
    constructor
    · have := roundTo1_eval 51 510 (by norm_num) (by norm_num)
      rw [this]; norm_num
    · have := roundTo1_eval 69 690 (by norm_num) (by norm_num)
      rw [this]; norm_num

/-- Claim C3 witness: the general statement applied to Scenario A. -/
theorem C3_calibrated_effort_witness :
    (⟨['O','A','u','t','h',' ','L','o','g','i','n'], 60, true, false⟩ : SubOut).effort
        = roundTo1 ((⟨200/4, 4⟩ : CalInfo).avg_hours * (6/5))
    ∧ (⟨['O','A','u','t','h',' ','L','o','g','i','n'], 60, true, false⟩ : SubOut).was_calibrated
        = true := by
  have hfeats : (executeE [(['o','a','u','t','h','l','o','g','i','n'], ⟨200, 4⟩)]
      [⟨['L','o','g','i','n'], ['M','e','d','i','u','m'],
        [['O','A','u','t','h',' ','L','o','g','i','n']]⟩] none).features
      = [⟨['L','o','g','i','n'], ['M','e','d','i','u','m'], 60,
          [⟨['O','A','u','t','h',' ','L','o','g','i','n'], 60, true, false⟩], true⟩] :=
    congrArg EstimateResult.features C3_calibrated_effort.2.2
  exact C3_calibrated_effort.1
    [(['o','a','u','t','h','l','o','g','i','n'], ⟨200, 4⟩)]
    [⟨['L','o','g','i','n'], ['M','e','d','i','u','m'],
      [['O','A','u','t','h',' ','L','o','g','i','n']]⟩]
    none
    ⟨['L','o','g','i','n'], ['M','e','d','i','u','m'], 60,
      [⟨['O','A','u','t','h',' ','L','o','g','i','n'], 60, true, false⟩], true⟩
    ⟨['O','A','u','t','h',' ','L','o','g','i','n'], 60, true, false⟩
    ⟨200/4, 4⟩
    (by rw [hfeats]; exact List.mem_singleton.mpr rfl)
    (List.mem_singleton.mpr rfl)
    (by simp +decide [getCalibrationInfo, storeLookup, normalizeStrict, toLowerM, isStrictChar])
    (by norm_num)

/-- Claim C4: when the external call raises (resp = none) every item of the
batch gets 16.0 raw hours, a response of the wrong length is treated the same
way, and on a failing call every non-calibrated subfeature of the completed
result carries effort round(16.0 * 1.20, 1) = 19.2; the estimation is a total
function of its inputs, so it always completes. -/
theorem C4_batch_failure :
    (∀ items : List Item, llmEstimateBatch items none = List.replicate items.length 16)
    ∧ (∀ (items : List Item) (hs : List (Option ℚ)), hs.length ≠ items.length →
        llmEstimateBatch items (some hs) = List.replicate items.length 16)
    ∧ (∀ (store : Store) (fs : List FeatureIn) (feat : FeatOut) (sf : SubOut),
        feat ∈ (executeE store fs none).features → sf ∈ feat.subfeatures →
        sf.was_calibrated = false → sf.effort = 96/5) := by
  refine ⟨fun items => rfl, ?_, ?_⟩
  · intro items hs hlen
    simp [llmEstimateBatch, hlen]
  · intro store fs feat sf hfeat hsf hwc
    by_cases hfs : fs = []
    · subst hfs
      simp [executeE] at hfeat
    · rw [executeE_features store fs none hfs] at hfeat
      by_cases hit : (pass1 store fs).2 = []
      · rw [if_pos hit] at hfeat
        have hpend := pass1_items_nil store fs hit feat hfeat sf hsf
        have hcal := ((pass1_sub_spec store fs feat hfeat sf hsf).1 hpend).1
        rw [hcal] at hwc
        exact absurd hwc (by simp)
      · rw [if_neg hit] at hfeat
        have h16 : ∀ x ∈ llmEstimateBatch (pass1 store fs).2 none, x = (16 : ℚ) := by
          intro x hx
          exact List.eq_of_mem_replicate hx
        have hinv : ∀ fo ∈ (pass1 store fs).1, ∀ s ∈ fo.subfeatures,
            s.pending = false → s.was_calibrated = true := by
          intro fo hfo s hsm hpf
          exact ((pass1_sub_spec store fs fo hfo s hsm).1 hpf).1
        have := fillFeatures_sixteen (pass1 store fs).1 _ h16 hinv feat hfeat sf hsf hwc
        rw [this, roundTo1_fallback]

/-- Claim C4 witness: a batch of three deferred items under a failing external
call, all receiving 19.2 (Scenario D). -/
theorem C4_batch_failure_witness :
    llmEstimateBatch [⟨['p'], ['a'], ['m','e','d','i','u','m']⟩,
        ⟨['p'], ['b'], ['m','e','d','i','u','m']⟩,
        ⟨['p'], ['c'], ['m','e','d','i','u','m']⟩] none = List.replicate 3 16
    ∧ llmEstimateBatch [⟨['p'], ['a'], ['m','e','d','i','u','m']⟩]
        (some [some 5, some 7]) = List.replicate 1 16
    ∧ (⟨['a'], 96/5, false, false⟩ : SubOut).effort = 96/5
    ∧ (⟨['b'], 96/5, false, false⟩ : SubOut).effort = 96/5
    ∧ (⟨['c'], 96/5, false, false⟩ : SubOut).effort = 96/5 := by
  have r1a : roundTo1 ((96 : ℚ)/5) = 96/5 := by
    have := roundTo1_eval ((96 : ℚ)/5) 192 (by norm_num) (by norm_num)
    rw [this]; norm_num
  have r1b : roundTo1 ((192 : ℚ)/5) = 192/5 := by
    have := roundTo1_eval ((192 : ℚ)/5) 384 (by norm_num) (by norm_num)
    rw [this]; norm_num
  have r1c : roundTo1 ((288 : ℚ)/5) = 288/5 := by
    have := roundTo1_eval ((288 : ℚ)/5) 576 (by norm_num) (by norm_num)
    rw [this]; norm_num
  have hfeats : (executeE []
      [⟨['p'], ['m','e','d','i','u','m'], [['a'], ['b'], ['c']]⟩] none).features
      = [⟨['p'], ['M','e','d','i','u','m'], 288/5,
          [⟨['a'], 96/5, false, false⟩, ⟨['b'], 96/5, false, false⟩,
           ⟨['c'], 96/5, false, false⟩], false⟩] := by
    simp +decide [executeE, pass1, pass1Feature, pass1Subs, effectiveSubs,
      getCalibrationInfo_nil, capitalizeM, toUpperM, toLowerM, llmEstimateBatch,
      List.replicate, fillFeatures, fillSubs, roundTo1_fallback]
    norm_num [roundTo1_fallback, r1a, r1b, r1c]
  have hmem : ∀ sf ∈ [(⟨['a'], (96 : ℚ)/5, false, false⟩ : SubOut),
      ⟨['b'], 96/5, false, false⟩, ⟨['c'], 96/5, false, false⟩],
      sf.was_calibrated = false → sf.effort = 96/5 := by
    intro sf hsf
    exact C4_batch_failure.2.2 []
      [⟨['p'], ['m','e','d','i','u','m'], [['a'], ['b'], ['c']]⟩]
      ⟨['p'], ['M','e','d','i','u','m'], 288/5,
        [⟨['a'], 96/5, false, false⟩, ⟨['b'], 96/5, false, false⟩,
         ⟨['c'], 96/5, false, false⟩], false⟩
      sf
      (by rw [hfeats]; exact List.mem_singleton.mpr rfl)
      hsf
  refine ⟨C4_batch_failure.1 _, C4_batch_failure.2.1 _ [some 5, some 7] (by simp), ?_, ?_, ?_⟩
  · exact hmem _ (by simp) rfl
  · exact hmem _ (by simp) rfl
  · exact hmem _ (by simp) rfl

/-- Claim C5 counterexample: a high-complexity subfeature with no calibration
and a failing external call receives the flat 16.0 fallback (effort 19.2),
not the claimed 28 base hours (which would give effort 33.6). -/
theorem C5_fallback_cex :
    ((executeE [] [⟨['f'], ['h','i','g','h'], [['s']]⟩] none).features.map
        (fun fo => fo.subfeatures.map SubOut.effort)) = [[(96/5 : ℚ)]]
    ∧ (96/5 : ℚ) ≠ roundTo1 ((28 : ℚ) * (6/5)) := by
  constructor
  · have r1a : roundTo1 ((96 : ℚ)/5) = 96/5 := by
      have := roundTo1_eval ((96 : ℚ)/5) 192 (by norm_num) (by norm_num)
      rw [this]; norm_num
    simp +decide [executeE, pass1, pass1Feature, pass1Subs, effectiveSubs,
      getCalibrationInfo_nil, capitalizeM, toUpperM, toLowerM, llmEstimateBatch,
      List.replicate, fillFeatures, fillSubs, roundTo1_fallback]
  · have h : roundTo1 ((28 : ℚ) * (6/5)) = 168/5 := by
      have he : ((28 : ℚ) * (6/5)) = ((336 : ℤ) : ℚ)/10 := by norm_num
      rw [he, roundTo1_tenth]; norm_num
    rw [h]; norm_num

/-- Claim C5 (amended): the static fallback is 16.0 raw hours for every
deferred item regardless of its complexity level (the source has no
per-complexity table; high complexity does not receive 28). -/
theorem C5_fallback_amended :
    ∀ items : List Item,
      (llmEstimateBatch items none).length = items.length
      ∧ ∀ x ∈ llmEstimateBatch items none, x = (16 : ℚ) := by
  intro items
  constructor
  · simp [llmEstimateBatch]
  · intro x hx
    exact List.eq_of_mem_replicate hx

/-- Claim C5 witness: the flat fallback on a batch containing all three
complexity levels. -/
theorem C5_fallback_witness :
    (llmEstimateBatch [⟨['f'], ['s'], ['l','o','w']⟩,
        ⟨['f'], ['s'], ['m','e','d','i','u','m']⟩,
        ⟨['f'], ['s'], ['h','i','g','h']⟩] none).length = 3
    ∧ (16 : ℚ) = 16 := by
  refine ⟨(C5_fallback_amended [⟨['f'], ['s'], ['l','o','w']⟩,
      ⟨['f'], ['s'], ['m','e','d','i','u','m']⟩,
      ⟨['f'], ['s'], ['h','i','g','h']⟩]).1, ?_⟩
  exact (C5_fallback_amended [⟨['f'], ['s'], ['l','o','w']⟩]).2 16
    (by simp [llmEstimateBatch, List.replicate])

/-- Claim C7 counterexample: a feature whose single subfeature has an empty
name yields an output feature with an EMPTY subfeature list — empty-named
subfeatures are skipped, and nothing is synthesized because the subfeature
list itself was nonempty. -/
theorem C7_nonempty_subfeatures_cex :
    ((executeE [] [⟨['F'], ['M','e','d','i','u','m'], [[]]⟩] none).features.map
        FeatOut.subfeatures) = [[]] := by
  simp +decide [executeE, pass1, pass1Feature, pass1Subs, effectiveSubs, capitalizeM,
    toUpperM, toLowerM]

/-- Claim C7 (amended): when a feature has no subfeatures a single subfeature
named after the parent is synthesized; the output has exactly one feature per
input feature; and an output feature has at least one subfeature provided
some effective subfeature name is nonempty (a feature whose effective
subfeature names are all empty produces an empty subfeature list). -/
theorem C7_nonempty_subfeatures_amended :
    (∀ (store : Store) (f : FeatureIn), f.subfeatures = [] →
        pass1Feature store f = pass1Feature store ⟨f.name, f.complexity, [f.name]⟩)
    ∧ (∀ (store : Store) (fs : List FeatureIn) (resp : Option (List (Option ℚ))),
        (executeE store fs resp).features.length = fs.length)
    ∧ (∀ (store : Store) (fs : List FeatureIn) (resp : Option (List (Option ℚ))),
        ∀ p ∈ fs.zip (executeE store fs resp).features,
          (∃ n ∈ effectiveSubs p.1, n ≠ []) → p.2.subfeatures ≠ []) := by
  have hF : ∀ (store : Store) (fs : List FeatureIn) (resp : Option (List (Option ℚ))),
      fs ≠ [] →
      List.Forall₂ (fun f fo' =>
        fo'.subfeatures.length = ((pass1Feature store f).1).subfeatures.length)
        fs ((executeE store fs resp).features) := by
    intro store fs resp hfs
    rw [executeE_features store fs resp hfs]
    by_cases hit : (pass1 store fs).2 = []
    · rw [if_pos hit, pass1_fst]
      rw [List.forall₂_map_right_iff]
      exact List.forall₂_same.mpr (fun f _ => rfl)
    · rw [if_neg hit, pass1_fst]
      exact List.forall₂_map_left_iff.mp
        (fillFeatures_forall2 (fs.map (fun f => (pass1Feature store f).1))
          (llmEstimateBatch (pass1 store fs).2 resp))
  refine ⟨?_, ?_, ?_⟩
  · intro store f hf
    simp [pass1Feature, effectiveSubs, hf]
  · intro store fs resp
    by_cases hfs : fs = []
    · subst hfs
      simp [executeE]
    · exact ((hF store fs resp hfs).length_eq).symm
  · intro store fs resp p hp hex
    by_cases hfs : fs = []
    · subst hfs
      simp at hp
    · obtain ⟨f, fo⟩ := p
      have hR := (List.forall₂_iff_zip.mp (hF store fs resp hfs)).2 hp
      have hne : ((pass1Feature store f).1).subfeatures ≠ [] := by
        rw [pass1Feature_subfeatures]
        intro hnil
        obtain ⟨n, hn, hnn⟩ := hex
        exact hnn ((pass1Subs_nil_iff store f.name (f.complexity.map toLowerM)
          (effectiveSubs f)).mp hnil n hn)
      intro hnil2
      apply hne
      apply List.length_eq_zero.mp
      rw [← hR, hnil2]
      rfl

/-- Claim C7 witness: a feature with no subfeatures and a nonempty name gets
a synthesized, calibrated subfeature, so its output subfeature list is
nonempty. -/
theorem C7_nonempty_subfeatures_witness :
    (⟨['g'], ['M','e','d','i','u','m'], 12, [⟨['g'], 12, true, false⟩], true⟩
      : FeatOut).subfeatures ≠ [] := by
  have hinfo : getCalibrationInfo [(['g'], ⟨20, 2⟩)] ['g'] = some ⟨20/2, 2⟩ := by
    simp +decide [getCalibrationInfo, storeLookup, normalizeStrict, toLowerM, isStrictChar]
  have havg : ((20 : ℚ)/2) * (6/5) = 12 := by norm_num
  have hr : roundTo1 (12 : ℚ) = 12 := by
    have := roundTo1_eval 12 120 (by norm_num) (by norm_num)
    rw [this]; norm_num
  have hfeats : (executeE [(['g'], ⟨20, 2⟩)]
      [⟨['g'], ['m','e','d','i','u','m'], []⟩] none).features
      = [⟨['g'], ['M','e','d','i','u','m'], 12, [⟨['g'], 12, true, false⟩], true⟩] := by
    simp +decide [executeE, pass1, pass1Feature, pass1Subs, effectiveSubs, hinfo, havg, hr,
      capitalizeM, toUpperM, toLowerM]
  exact C7_nonempty_subfeatures_amended.2.2 [(['g'], ⟨20, 2⟩)]
    [⟨['g'], ['m','e','d','i','u','m'], []⟩] none
    (⟨['g'], ['m','e','d','i','u','m'], []⟩,
     ⟨['g'], ['M','e','d','i','u','m'], 12, [⟨['g'], 12, true, false⟩], true⟩)
    (by rw [hfeats]; exact List.mem_singleton.mpr rfl)
    ⟨['g'], by simp [effectiveSubs], by decide⟩
